import Mathlib

/-!
Verification development for the `deet` debugger (`proj-1/deet`), a shallow
embedding of `src/inferior.rs` and `src/debugger.rs`.

Machine integers are modelled as `Nat` with explicit 64-bit reasoning where the
source manipulates `usize`/`u64` words; `ptrace` reads and writes against the
traced process are modelled as an explicit memory map, and the outcomes of the
blocking `wait` calls (which depend on the child process) are supplied by
explicit environment records.
-/

namespace Deet

/-- The modulus of 64-bit machine words (`usize`/`u64` on the target). -/
def U64MOD : Nat := 2 ^ 64

/-- Source `align_addr_to_word`: `addr & (-(size_of::<usize>() as isize) as usize)`.
On the 64-bit target the mask `-(8 as isize) as usize` is `2^64 - 8`. -/
def alignAddrToWord (addr : Nat) : Nat := addr &&& (U64MOD - 8)

/-- Bitwise complement on a 64-bit word: Rust `!x` at type `u64`. -/
def u64Not (x : Nat) : Nat := x ^^^ (U64MOD - 1)

/-- The byte of `word` at byte offset `off`: the source expression
`(word >> (8 * byte_offset)) & 0xff` used by `Inferior::write_byte`. -/
def wordByte (word off : Nat) : Nat := (word >>> (8 * off)) &&& 0xff

/-- The word `word` with its byte at offset `off` replaced by `val`: the source
expression `(word & !(0xff << (8 * byte_offset))) | ((val as u64) << (8 * byte_offset))`. -/
def setByteWord (word off val : Nat) : Nat :=
  (word &&& u64Not (0xff <<< (8 * off))) ||| (val <<< (8 * off))

theorem wordByte_le (word off : Nat) : wordByte word off ≤ 255 :=
  Nat.and_le_right

theorem testBit_wordByte (word off i : Nat) :
    (wordByte word off).testBit i = (decide (i < 8) && word.testBit (8 * off + i)) := by
  have h255 : (0xff : Nat) = 2 ^ 8 - 1 := by decide
  simp only [wordByte, Nat.testBit_land, Nat.testBit_shiftRight, h255,
    Nat.testBit_two_pow_sub_one]
  exact Bool.and_comm _ _

theorem testBit_setByteWord (word off val i : Nat) (hoff : off < 8) (hval : val < 256) :
    (setByteWord word off val).testBit i =
      if 8 * off ≤ i ∧ i < 8 * off + 8 then val.testBit (i - 8 * off)
      else if i < 64 then word.testBit i else false := by
  have h255 : (0xff : Nat) = 2 ^ 8 - 1 := by decide
  have h64 : (U64MOD - 1 : Nat) = 2 ^ 64 - 1 := rfl
  simp only [setByteWord, u64Not, Nat.testBit_lor, Nat.testBit_land, Nat.testBit_xor,
    Nat.testBit_shiftLeft, h255, h64, Nat.testBit_two_pow_sub_one]
  by_cases hlo : 8 * off ≤ i
  · by_cases hhi : i < 8 * off + 8
    · have h1 : (decide (i ≥ 8 * off) && decide (i - 8 * off < 8)) = true := by
        simp [hlo, Nat.lt_of_lt_of_le, hhi]; omega
      have h2 : decide (i < 64) = true := by
        simp; omega
      simp only [h1, h2, if_pos (And.intro hlo hhi)]
      simp [ge_iff_le, hlo]
    · -- above the replaced byte
      have h1 : decide (i - 8 * off < 8) = false := by simp; omega
      have hv : val.testBit (i - 8 * off) = false := by
        apply Nat.testBit_lt_two_pow
        calc val < 256 := hval
          _ = 2 ^ 8 := by norm_num
          _ ≤ 2 ^ (i - 8 * off) := Nat.pow_le_pow_right (by norm_num) (by omega)
      simp only [h1, Bool.and_false, Bool.false_xor, hv, Bool.or_false,
        if_neg (by omega : ¬(8 * off ≤ i ∧ i < 8 * off + 8))]
      by_cases h2 : i < 64
      · simp [h2, hlo]
      · simp [h2]
  · -- below the replaced byte
    have h1 : decide (i ≥ 8 * off) = false := by simp; omega
    have h2 : decide (i < 64) = true := by simp; omega
    simp only [h1, Bool.false_and, Bool.false_xor,
      if_neg (by omega : ¬(8 * off ≤ i ∧ i < 8 * off + 8)), h2, if_pos (by omega : i < 64)]
    simp

theorem wordByte_setByteWord_same (word off val : Nat) (hoff : off < 8) (hval : val < 256) :
    wordByte (setByteWord word off val) off = val := by
  apply Nat.eq_of_testBit_eq
  intro i
  rw [testBit_wordByte]
  by_cases hi : i < 8
  · rw [testBit_setByteWord word off val _ hoff hval,
      if_pos (by omega : 8 * off ≤ 8 * off + i ∧ 8 * off + i < 8 * off + 8)]
    simp [hi]
  · have : val.testBit i = false := by
      apply Nat.testBit_lt_two_pow
      calc val < 256 := hval
        _ = 2 ^ 8 := by norm_num
        _ ≤ 2 ^ i := Nat.pow_le_pow_right (by norm_num) (by omega)
    simp [hi, this]

theorem wordByte_setByteWord_other (word off val off' : Nat) (hoff : off < 8)
    (hoff' : off' < 8) (hne : off ≠ off') (hval : val < 256) :
    wordByte (setByteWord word off val) off' = wordByte word off' := by
  apply Nat.eq_of_testBit_eq
  intro i
  rw [testBit_wordByte, testBit_wordByte]
  by_cases hi : i < 8
  · rw [testBit_setByteWord word off val _ hoff hval]
    rw [if_neg (by omega : ¬(8 * off ≤ 8 * off' + i ∧ 8 * off' + i < 8 * off + 8))]
    rw [if_pos (by omega : 8 * off' + i < 64)]
  · simp [hi]

theorem alignAddrToWord_eq (addr : Nat) (h : addr < U64MOD) :
    alignAddrToWord addr = addr / 8 * 8 := by
  have hmask : (U64MOD - 8 : Nat) = (2 ^ 61 - 1) <<< 3 := by decide
  have hdiv : addr / 8 * 8 = (addr >>> 3) <<< 3 := by
    rw [Nat.shiftRight_eq_div_pow, Nat.shiftLeft_eq]
  rw [alignAddrToWord, hmask, hdiv]
  apply Nat.eq_of_testBit_eq
  intro i
  simp only [Nat.testBit_land, Nat.testBit_shiftLeft, Nat.testBit_two_pow_sub_one,
    Nat.testBit_shiftRight]
  by_cases h3 : 3 ≤ i
  · have heq : 3 + (i - 3) = i := by omega
    by_cases h64 : i < 64
    · simp [h3, heq]; omega
    · have hbit : addr.testBit i = false := by
        apply Nat.testBit_lt_two_pow
        calc addr < U64MOD := h
          _ = 2 ^ 64 := rfl
          _ ≤ 2 ^ i := Nat.pow_le_pow_right (by norm_num) (by omega)
      simp [heq, hbit]
  · simp [h3]

theorem alignAddrToWord_le (addr : Nat) (h : addr < U64MOD) :
    alignAddrToWord addr ≤ addr ∧ addr - alignAddrToWord addr < 8 := by
  rw [alignAddrToWord_eq addr h]
  omega

/-- Memory of the traced process: maps a byte address to the 64-bit word that
`ptrace::read` yields there, `none` modelling an errored read (unmapped page).
`Inferior::write_byte` only ever accesses word-aligned addresses. -/
def Mem : Type := Nat → Option Nat

/-- A `ptrace::write` of word `w` at address `a`. -/
def memWrite (mem : Mem) (a w : Nat) : Mem := fun x => if x = a then some w else mem x

/-- Errors surfaced by the `nix` ptrace wrappers (`nix::Error`); the claims only
need to distinguish failure from success, so a single variant suffices. -/
inductive NixError
  | sys
deriving DecidableEq

/-- The byte the traced process currently holds at `addr`, read through the
containing aligned word exactly as `write_byte` addresses memory. -/
def byteAt (mem : Mem) (addr : Nat) : Option Nat :=
  match mem (alignAddrToWord addr) with
  | none => none
  | some w => some (wordByte w (addr - alignAddrToWord addr))

/-- Source `Inferior::write_byte`: reads the aligned word containing `addr`,
replaces the byte at the offset with `val`, writes the word back, and returns
the original byte.  The single memory lookup guards both the `ptrace::read`
and the `ptrace::write`, which target the same aligned word. -/
def writeByte (mem : Mem) (addr val : Nat) : Except NixError (Nat × Mem) :=
  match mem (alignAddrToWord addr) with
  | none => .error .sys
  | some word =>
      .ok (wordByte word (addr - alignAddrToWord addr),
        memWrite mem (alignAddrToWord addr)
          (setByteWord word (addr - alignAddrToWord addr) val))

/-- Source `struct Breakpoint`. -/
structure Breakpoint where
  addr : Nat
  origByte : Nat
deriving DecidableEq

/-- The `HashMap<usize, Breakpoint>` of tracked breakpoints, as an association
list keyed by address (the source only inserts keys that are absent, so a
`cons` models `HashMap::insert` there). -/
def BpTable : Type := List (Nat × Breakpoint)

def bpLookup (t : BpTable) (a : Nat) : Option Breakpoint := List.lookup a t

def bpContains (t : BpTable) (a : Nat) : Bool := (bpLookup t a).isSome

/-- Number of table entries stored for address `a`. -/
def bpCount (t : BpTable) (a : Nat) : Nat := (t.filter (fun p => p.1 == a)).length

/-- Source `struct Inferior`: the child-process handle is ambient (its pid is
implicit in the memory model), leaving the breakpoint table and the traced
process's memory. -/
structure Inferior where
  breakpoints : BpTable
  mem : Mem

/-- Source `Inferior::insert_breakpoint`. -/
def insertBreakpoint (inf : Inferior) (addr : Nat) : Except NixError Inferior :=
  if bpContains inf.breakpoints addr then .ok inf
  else
    match writeByte inf.mem addr 0xcc with
    | .error e => .error e
    | .ok (orig, mem1) =>
        .ok ⟨(addr, ⟨addr, orig⟩) :: inf.breakpoints, mem1⟩

theorem memWrite_same (mem : Mem) (a w : Nat) : memWrite mem a w a = some w := by
  simp [memWrite]

theorem memWrite_other (mem : Mem) (a w x : Nat) (h : x ≠ a) : memWrite mem a w x = mem x := by
  simp [memWrite, h]

theorem byteAt_lt (mem : Mem) (addr v : Nat) (h : byteAt mem addr = some v) : v < 256 := by
  unfold byteAt at h
  cases hm : mem (alignAddrToWord addr) with
  | none => rw [hm] at h; exact absurd h (by simp)
  | some w =>
      rw [hm] at h
      simp only [Option.some.injEq] at h
      have := wordByte_le w (addr - alignAddrToWord addr)
      omega

theorem writeByte_ok (mem : Mem) (addr val w : Nat)
    (hm : mem (alignAddrToWord addr) = some w) :
    writeByte mem addr val =
      .ok (wordByte w (addr - alignAddrToWord addr),
        memWrite mem (alignAddrToWord addr)
          (setByteWord w (addr - alignAddrToWord addr) val)) := by
  unfold writeByte
  rw [hm]

theorem writeByte_orig (mem : Mem) (addr val orig : Nat) (mem1 : Mem)
    (h : writeByte mem addr val = .ok (orig, mem1)) :
    byteAt mem addr = some orig := by
  unfold writeByte at h
  cases hm : mem (alignAddrToWord addr) with
  | none => rw [hm] at h; exact absurd h (by simp)
  | some w =>
      rw [hm] at h
      simp only [Except.ok.injEq, Prod.mk.injEq] at h
      unfold byteAt
      rw [hm]
      simpa using h.1

/-- Reading back the byte just written. -/
theorem byteAt_writeByte_same (mem : Mem) (addr val orig : Nat) (mem1 : Mem)
    (haddr : addr < U64MOD) (hval : val < 256)
    (h : writeByte mem addr val = .ok (orig, mem1)) :
    byteAt mem1 addr = some val := by
  unfold writeByte at h
  cases hm : mem (alignAddrToWord addr) with
  | none => rw [hm] at h; exact absurd h (by simp)
  | some w =>
      rw [hm] at h
      simp only [Except.ok.injEq, Prod.mk.injEq] at h
      unfold byteAt
      rw [← h.2, memWrite_same]
      simp only [Option.some.injEq]
      exact wordByte_setByteWord_same _ _ _ (alignAddrToWord_le addr haddr).2 hval

/-- A byte write leaves every other byte of memory unchanged. -/
theorem byteAt_writeByte_other (mem : Mem) (addr val orig : Nat) (mem1 : Mem)
    (a : Nat) (haddr : addr < U64MOD) (ha : a < U64MOD) (hne : a ≠ addr)
    (hval : val < 256)
    (h : writeByte mem addr val = .ok (orig, mem1)) :
    byteAt mem1 a = byteAt mem a := by
  unfold writeByte at h
  cases hm : mem (alignAddrToWord addr) with
  | none => rw [hm] at h; exact absurd h (by simp)
  | some w =>
      rw [hm] at h
      simp only [Except.ok.injEq, Prod.mk.injEq] at h
      unfold byteAt
      rw [← h.2]
      by_cases hal : alignAddrToWord a = alignAddrToWord addr
      · have hoffne : addr - alignAddrToWord addr ≠ a - alignAddrToWord a := by
          rw [alignAddrToWord_eq a ha] at hal ⊢
          rw [alignAddrToWord_eq addr haddr] at hal ⊢
          omega
        rw [hal, memWrite_same, hm]
        simp only [Option.some.injEq]
        nth_rewrite 2 [← hal]
        nth_rewrite 2 [← hal]
        exact wordByte_setByteWord_other _ _ _ _ (alignAddrToWord_le addr haddr).2
          (alignAddrToWord_le a ha).2 hoffne hval
      · rw [memWrite_other _ _ _ _ hal]

/-- Signals relevant to the debugger, from `nix::sys::signal::Signal`. -/
inductive Signal
  | SIGTRAP
  | SIGSEGV
  | SIGINT
  | SIGKILL
  | SIGTERM
deriving DecidableEq

/-- Source `enum Status`. -/
inductive Status
  | Stopped (signal : Signal) (rip : Nat)
  | Exited (code : Int)
  | Signaled (signal : Signal)
deriving DecidableEq

/-- General-purpose registers, restricted to the fields the source reads
(`regs.rip` in `cont` and `wait`, `regs.rbp` in `print_backtrace`). -/
structure Regs where
  rip : Nat
  rbp : Nat
deriving DecidableEq

/-- Environment for `Inferior::new`: whether `Command::spawn` succeeded, the
`Status` the initial blocking `wait` reports (already translated by
`Inferior::wait` from the raw `waitpid` result), and the fresh child's memory. -/
structure SpawnEnv where
  spawnOk : Bool
  initialWait : Except NixError Status
  initialMem : Mem

/-- The `for bp in breakpoints { inferior.insert_breakpoint(*bp).ok()? }` loop
of `Inferior::new`: any insertion failure aborts with `None`. -/
def insertAllBreakpoints (inf : Inferior) : List Nat → Option Inferior
  | [] => some inf
  | a :: rest =>
    match insertBreakpoint inf a with
    | .error _ => none
    | .ok inf1 => insertAllBreakpoints inf1 rest

/-- Source `Inferior::new`. -/
def inferiorNew (env : SpawnEnv) (breakpoints : List Nat) : Option Inferior :=
  if env.spawnOk then
    match env.initialWait with
    | .error _ => none
    | .ok (.Stopped sig _) =>
        if sig = .SIGTRAP then insertAllBreakpoints ⟨[], env.initialMem⟩ breakpoints
        else none
    | .ok _ => none
  else none

/-- Environment for `Inferior::cont`: the `Status` values the two blocking
waits report (after `ptrace::step` and after `ptrace::cont`); the register
write-back and the step/resume requests themselves are assumed accepted. -/
structure ContEnv where
  stepWait : Except NixError Status
  contWait : Except NixError Status

/-- The tail of `Inferior::cont`: `ptrace::cont(self.pid(), None)?; self.wait(None)`. -/
def contResume (inf : Inferior) (env : ContEnv) : Except NixError (Status × Inferior) :=
  match env.contWait with
  | .error e => .error e
  | .ok st => .ok (st, inf)

/-- Source `Inferior::cont`.  The source computes `rip - 1` on a `usize` with no
guard, so `none` models the arithmetic underflow of that subtraction when
`rip = 0` (a panic in a checked build, a wrap to `2^64 - 1` otherwise), and
`some` carries the `Result` value of the call.  The source's `contains_key`
test and its two `get(&(rip - 1)).unwrap()` calls are modelled by a single
`match` on the same lookup. -/
def cont (inf : Inferior) (regs : Regs) (env : ContEnv) :
    Option (Except NixError (Status × Inferior)) :=
  if regs.rip = 0 then none
  else
    some (
      match bpLookup inf.breakpoints (regs.rip - 1) with
      | none => contResume inf env
      | some bp =>
        match writeByte inf.mem bp.addr bp.origByte with
        | .error e => .error e
        | .ok (_, mem1) =>
          match env.stepWait with
          | .error e => .error e
          | .ok (.Stopped sig _) =>
            if sig = .SIGTRAP then
              match writeByte mem1 bp.addr 0xcc with
              | .error e => .error e
              | .ok (_, mem2) => contResume ⟨inf.breakpoints, mem2⟩ env
            else contResume ⟨inf.breakpoints, mem1⟩ env
          | .ok other => .ok (other, ⟨inf.breakpoints, mem1⟩))

/-- The spec's breakpoint invariant: every tracked breakpoint address currently
holds the trap opcode in the traced process's memory (a tracked table entry
always carries its recorded original byte, so "original byte defined"
coincides with membership in the table). -/
def bpInvariant (inf : Inferior) : Prop :=
  ∀ a bp, bpLookup inf.breakpoints a = some bp → byteAt inf.mem a = some 0xcc

/-- Wellformedness of an inferior: tracked keys are 64-bit addresses, each
entry records its own key in `addr`, and saved original bytes are bytes. -/
def wfInferior (inf : Inferior) : Prop :=
  ∀ a bp, bpLookup inf.breakpoints a = some bp →
    bp.addr = a ∧ a < U64MOD ∧ bp.origByte < 256

theorem bpLookup_cons_self (t : BpTable) (a : Nat) (bp : Breakpoint) :
    bpLookup ((a, bp) :: t) a = some bp := by
  simp [bpLookup, List.lookup]

theorem bpLookup_cons_other (t : BpTable) (a k : Nat) (bp : Breakpoint) (h : k ≠ a) :
    bpLookup ((a, bp) :: t) k = bpLookup t k := by
  simp only [bpLookup, List.lookup]
  rw [show (k == a) = false from by simp [h]]

theorem bpCount_of_lookup_none (t : BpTable) (a : Nat) (h : bpLookup t a = none) :
    bpCount t a = 0 := by
  induction t with
  | nil => rfl
  | cons p rest ih =>
      by_cases hp : p.1 = a
      · exfalso
        rw [bpLookup, ← hp] at h
        simp [List.lookup] at h
      · have h1 : bpLookup rest a = none := by
          rw [bpLookup, List.lookup.eq_def] at h
          simp only at h
          split at h
          · exact absurd h (by simp)
          · exact h
        have := ih h1
        simp only [bpCount, List.filter] at this ⊢
        rw [show (p.1 == a) = false from by simp [hp]]
        exact this

/-- Characterisation of `insert_breakpoint` on an untracked address whose word
is mapped. -/
theorem insertBreakpoint_eq (inf : Inferior) (A w : Nat)
    (hnot : bpContains inf.breakpoints A = false)
    (hm : inf.mem (alignAddrToWord A) = some w) :
    insertBreakpoint inf A =
      .ok ⟨(A, ⟨A, wordByte w (A - alignAddrToWord A)⟩) :: inf.breakpoints,
        memWrite inf.mem (alignAddrToWord A)
          (setByteWord w (A - alignAddrToWord A) 0xcc)⟩ := by
  unfold insertBreakpoint
  rw [if_neg (by simp [hnot]), writeByte_ok inf.mem A 0xcc w hm]

theorem insertBreakpoint_tracked (inf : Inferior) (A : Nat)
    (h : bpContains inf.breakpoints A = true) :
    insertBreakpoint inf A = .ok inf := by
  unfold insertBreakpoint
  rw [if_pos h]

theorem insertBreakpoint_contains (inf inf1 : Inferior) (A : Nat)
    (h : insertBreakpoint inf A = .ok inf1) :
    bpContains inf1.breakpoints A = true := by
  unfold insertBreakpoint at h
  by_cases hc : bpContains inf.breakpoints A
  · rw [if_pos hc] at h
    injection h with h
    rw [← h]
    exact hc
  · rw [if_neg hc] at h
    cases hw : writeByte inf.mem A 0xcc with
    | error e => rw [hw] at h; exact absurd h (by simp)
    | ok p =>
        obtain ⟨orig, mem1⟩ := p
        rw [hw] at h
        simp only at h
        injection h with h
        rw [← h]
        simp [bpContains, bpLookup_cons_self]

theorem insertBreakpoint_mono (inf inf1 : Inferior) (A k : Nat)
    (h : insertBreakpoint inf A = .ok inf1)
    (hk : bpContains inf.breakpoints k = true) :
    bpContains inf1.breakpoints k = true := by
  unfold insertBreakpoint at h
  by_cases hc : bpContains inf.breakpoints A
  · rw [if_pos hc] at h
    injection h with h
    rw [← h]
    exact hk
  · rw [if_neg hc] at h
    cases hw : writeByte inf.mem A 0xcc with
    | error e => rw [hw] at h; exact absurd h (by simp)
    | ok p =>
        obtain ⟨orig, mem1⟩ := p
        rw [hw] at h
        simp only at h
        injection h with h
        rw [← h]
        by_cases hka : k = A
        · subst hka
          simp [bpContains, bpLookup_cons_self]
        · simp only [bpContains] at hk ⊢
          rw [bpLookup_cons_other _ _ _ _ hka]
          exact hk

theorem insertAllBreakpoints_contains (l : List Nat) :
    ∀ inf inf1, insertAllBreakpoints inf l = some inf1 →
      ∀ a, (a ∈ l ∨ bpContains inf.breakpoints a = true) →
        bpContains inf1.breakpoints a = true := by
  induction l with
  | nil =>
      intro inf inf1 h a ha
      injection h with h
      rcases ha with hmem | htr
      · exact absurd hmem (by simp)
      · rw [← h]; exact htr
  | cons b rest ih =>
      intro inf inf1 h a ha
      unfold insertAllBreakpoints at h
      cases hw : insertBreakpoint inf b with
      | error e => rw [hw] at h; exact absurd h (by simp)
      | ok inf2 =>
          rw [hw] at h
          simp only at h
          rcases ha with hmem | htr
          · rcases List.mem_cons.mp hmem with rfl | hrest
            · exact ih inf2 inf1 h a (Or.inr (insertBreakpoint_contains _ _ _ hw))
            · exact ih inf2 inf1 h a (Or.inl hrest)
          · exact ih inf2 inf1 h a (Or.inr (insertBreakpoint_mono _ _ _ _ hw htr))

/-- C2 (confirmed): for an address A whose byte holds V before patching,
`insert_breakpoint(A)` leaves the trap opcode at A and records V as the
original byte; the restore sub-step of the resume protocol
(`write_byte(A, orig_byte)`) brings the byte at A back to V; the re-arm
sub-step (`write_byte(A, 0xcc)`) makes it the trap opcode again. -/
theorem insert_restore_rearm_byte_roundtrip (inf : Inferior) (A V : Nat)
    (hA : A < U64MOD) (hV : byteAt inf.mem A = some V)
    (hnot : bpContains inf.breakpoints A = false) :
    ∃ inf1, insertBreakpoint inf A = .ok inf1 ∧
      bpLookup inf1.breakpoints A = some ⟨A, V⟩ ∧
      byteAt inf1.mem A = some 0xcc ∧
      ∃ o1 mem2, writeByte inf1.mem A V = .ok (o1, mem2) ∧
        byteAt mem2 A = some V ∧
        ∃ o2 mem3, writeByte mem2 A 0xcc = .ok (o2, mem3) ∧
          byteAt mem3 A = some 0xcc := by
  have hV256 : V < 256 := byteAt_lt _ _ _ hV
  cases hm : inf.mem (alignAddrToWord A) with
  | none =>
      exfalso
      unfold byteAt at hV
      rw [hm] at hV
      exact absurd hV (by simp)
  | some w =>
      have hVw : wordByte w (A - alignAddrToWord A) = V := by
        unfold byteAt at hV
        rw [hm] at hV
        simpa using hV
      have h1 := insertBreakpoint_eq inf A w hnot hm
      have hw1 : writeByte inf.mem A 0xcc =
          .ok (wordByte w (A - alignAddrToWord A),
            memWrite inf.mem (alignAddrToWord A)
              (setByteWord w (A - alignAddrToWord A) 0xcc)) :=
        writeByte_ok inf.mem A 0xcc w hm
      refine ⟨_, h1, ?_, ?_, ?_⟩
      · rw [hVw]
        exact bpLookup_cons_self _ _ _
      · exact byteAt_writeByte_same inf.mem A 0xcc _ _ hA (by norm_num) hw1
      · have hm1 : (memWrite inf.mem (alignAddrToWord A)
            (setByteWord w (A - alignAddrToWord A) 0xcc)) (alignAddrToWord A) =
            some (setByteWord w (A - alignAddrToWord A) 0xcc) := memWrite_same _ _ _
        have hw2 := writeByte_ok _ A V _ hm1
        refine ⟨_, _, hw2, ?_, ?_⟩
        · exact byteAt_writeByte_same _ A V _ _ hA hV256 hw2
        · have hm2 : (memWrite
              (memWrite inf.mem (alignAddrToWord A)
                (setByteWord w (A - alignAddrToWord A) 0xcc))
              (alignAddrToWord A)
              (setByteWord (setByteWord w (A - alignAddrToWord A) 0xcc)
                (A - alignAddrToWord A) V)) (alignAddrToWord A) =
              some (setByteWord (setByteWord w (A - alignAddrToWord A) 0xcc)
                (A - alignAddrToWord A) V) := memWrite_same _ _ _
          have hw3 := writeByte_ok _ A 0xcc _ hm2
          exact ⟨_, _, hw3, byteAt_writeByte_same _ A 0xcc _ _ hA (by norm_num) hw3⟩

/-- Concrete one-word memory used by witnesses: the aligned word at 4096 holds
0x1122334455667788, everything else is unmapped. -/
def memW : Mem := fun a => if a = 4096 then some 0x1122334455667788 else none

theorem insert_restore_rearm_byte_roundtrip_witness :
    (4097 : Nat) < U64MOD ∧ byteAt memW 4097 = some 0x77 ∧
    bpContains ([] : BpTable) 4097 = false ∧
    (∃ inf1, insertBreakpoint ⟨[], memW⟩ 4097 = .ok inf1 ∧
      bpLookup inf1.breakpoints 4097 = some ⟨4097, 0x77⟩ ∧
      byteAt inf1.mem 4097 = some 0xcc ∧
      ∃ o1 mem2, writeByte inf1.mem 4097 0x77 = .ok (o1, mem2) ∧
        byteAt mem2 4097 = some 0x77 ∧
        ∃ o2 mem3, writeByte mem2 4097 0xcc = .ok (o2, mem3) ∧
          byteAt mem3 4097 = some 0xcc) :=
  ⟨by decide, by decide, by decide,
    insert_restore_rearm_byte_roundtrip ⟨[], memW⟩ 4097 0x77 (by decide) (by decide)
      (by decide)⟩

/-- C6 (confirmed): inserting the same breakpoint address twice results in
exactly one table entry; the second call succeeds with no memory access (it
returns the state unchanged); and the stored original byte is the byte from
before the first insertion, even though at the time of the second call the
trap opcode occupies the address in memory. -/
theorem insert_breakpoint_idempotent (inf : Inferior) (A V : Nat)
    (hA : A < U64MOD) (hV : byteAt inf.mem A = some V)
    (hnot : bpContains inf.breakpoints A = false) :
    ∃ inf1, insertBreakpoint inf A = .ok inf1 ∧
      insertBreakpoint inf1 A = .ok inf1 ∧
      bpCount inf1.breakpoints A = 1 ∧
      bpLookup inf1.breakpoints A = some ⟨A, V⟩ ∧
      byteAt inf1.mem A = some 0xcc := by
  cases hm : inf.mem (alignAddrToWord A) with
  | none =>
      exfalso
      unfold byteAt at hV
      rw [hm] at hV
      exact absurd hV (by simp)
  | some w =>
      have hVw : wordByte w (A - alignAddrToWord A) = V := by
        unfold byteAt at hV
        rw [hm] at hV
        simpa using hV
      have h1 := insertBreakpoint_eq inf A w hnot hm
      have hw1 : writeByte inf.mem A 0xcc =
          .ok (wordByte w (A - alignAddrToWord A),
            memWrite inf.mem (alignAddrToWord A)
              (setByteWord w (A - alignAddrToWord A) 0xcc)) :=
        writeByte_ok inf.mem A 0xcc w hm
      have hcount0 : bpCount inf.breakpoints A = 0 := by
        apply bpCount_of_lookup_none
        simp only [bpContains] at hnot
        exact Option.not_isSome_iff_eq_none.mp (by simp [hnot])
      refine ⟨_, h1, ?_, ?_, ?_, ?_⟩
      · apply insertBreakpoint_tracked
        simp [bpContains, bpLookup_cons_self]
      · simp only [bpCount, List.filter, beq_self_eq_true]
        simp only [bpCount] at hcount0
        simp [hcount0]
      · rw [hVw]
        exact bpLookup_cons_self _ _ _
      · exact byteAt_writeByte_same inf.mem A 0xcc _ _ hA (by norm_num) hw1

theorem insert_breakpoint_idempotent_witness :
    (4097 : Nat) < U64MOD ∧ byteAt memW 4097 = some 0x77 ∧
    bpContains ([] : BpTable) 4097 = false ∧
    (∃ inf1, insertBreakpoint ⟨[], memW⟩ 4097 = .ok inf1 ∧
      insertBreakpoint inf1 4097 = .ok inf1 ∧
      bpCount inf1.breakpoints 4097 = 1 ∧
      bpLookup inf1.breakpoints 4097 = some ⟨4097, 0x77⟩ ∧
      byteAt inf1.mem 4097 = some 0xcc) :=
  ⟨by decide, by decide, by decide,
    insert_breakpoint_idempotent ⟨[], memW⟩ 4097 0x77 (by decide) (by decide) (by decide)⟩

/-- On a successful spawn, every pending address has been inserted. -/
theorem inferiorNew_breakpoints (env : SpawnEnv) (bps : List Nat) (inf : Inferior)
    (h : inferiorNew env bps = some inf) :
    ∀ a, a ∈ bps → bpContains inf.breakpoints a = true := by
  intro a ha
  unfold inferiorNew at h
  by_cases hs : env.spawnOk
  · rw [if_pos hs] at h
    cases hw : env.initialWait with
    | error e => rw [hw] at h; exact absurd h (by simp)
    | ok st =>
        rw [hw] at h
        cases st with
        | Stopped sig r =>
            simp only at h
            by_cases hsig : sig = .SIGTRAP
            · subst hsig
              rw [if_pos rfl] at h
              exact insertAllBreakpoints_contains bps _ _ h a (Or.inl ha)
            · rw [if_neg hsig] at h
              exact absurd h (by simp)
        | Exited code => exact absurd h (by simp)
        | Signaled sig => exact absurd h (by simp)
  · rw [if_neg hs] at h
    exact absurd h (by simp)

/-- C4 (confirmed): `Inferior::new` returns a controller only when the initial
blocking wait reports a stop with the trap signal; any other initial wait
result (stop with a different signal, exit, signal-termination, or a wait
error) yields no controller; and on success every pending address has been
inserted as a breakpoint before control returns. -/
theorem inferior_new_spec (env : SpawnEnv) (bps : List Nat) :
    (∀ inf, inferiorNew env bps = some inf →
      env.spawnOk = true ∧
      (∃ r, env.initialWait = .ok (.Stopped .SIGTRAP r)) ∧
      ∀ a, a ∈ bps → bpContains inf.breakpoints a = true) ∧
    (∀ st, env.initialWait = .ok st → (∀ r, st ≠ .Stopped .SIGTRAP r) →
      inferiorNew env bps = none) ∧
    (∀ e, env.initialWait = .error e → inferiorNew env bps = none) := by
  refine ⟨?_, ?_, ?_⟩
  · intro inf h
    unfold inferiorNew at h
    by_cases hs : env.spawnOk
    · rw [if_pos hs] at h
      cases hw : env.initialWait with
      | error e => rw [hw] at h; exact absurd h (by simp)
      | ok st =>
          rw [hw] at h
          cases st with
          | Stopped sig r =>
              simp only at h
              by_cases hsig : sig = .SIGTRAP
              · subst hsig
                rw [if_pos rfl] at h
                exact ⟨hs, ⟨r, hw ▸ rfl⟩,
                  fun a ha => insertAllBreakpoints_contains bps _ _ h a (Or.inl ha)⟩
              · rw [if_neg hsig] at h
                exact absurd h (by simp)
          | Exited code => exact absurd h (by simp)
          | Signaled sig => exact absurd h (by simp)
    · rw [if_neg hs] at h
      exact absurd h (by simp)
  · intro st hw hne
    unfold inferiorNew
    by_cases hs : env.spawnOk
    · rw [if_pos hs, hw]
      cases st with
      | Stopped sig r =>
          simp only
          rw [if_neg (fun hsig => hne r (by rw [hsig]))]
      | Exited code => rfl
      | Signaled sig => rfl
    · rw [if_neg hs]
  · intro e hw
    unfold inferiorNew
    by_cases hs : env.spawnOk
    · rw [if_pos hs, hw]
    · rw [if_neg hs]

/-- Spawn environment used by witnesses: spawn succeeds and the initial wait
reports the expected trap stop. -/
def envW : SpawnEnv := ⟨true, .ok (.Stopped .SIGTRAP 4098), memW⟩

/-- The inferior `Inferior::new envW [4097]` produces: breakpoint 4097 tracked
with original byte 0x77, and the trap opcode patched into the word at 4096. -/
def infW : Inferior :=
  ⟨[(4097, ⟨4097, 0x77⟩)], memWrite memW 4096 0x112233445566cc88⟩

theorem inferior_new_spec_witness :
    envW.spawnOk = true ∧
    (∃ r, envW.initialWait = .ok (.Stopped .SIGTRAP r)) ∧
    ∀ a, a ∈ [4097] → bpContains infW.breakpoints a = true :=
  (inferior_new_spec envW [4097]).1 infW (by rfl)

/-- C10 (confirmed): `Inferior::cont` computes `rip - 1` on the unsigned
instruction pointer with no guard: the call is well-defined whenever the
stopped instruction pointer is at least 1, and for `rip = 0` the usize
subtraction underflows (modelled as `none`) instead of being handled as "no
tracked breakpoint". -/
theorem cont_rip_underflow :
    (∀ inf regs env, regs.rip ≠ 0 → (cont inf regs env).isSome = true) ∧
    (∀ inf rbp env, cont inf ⟨0, rbp⟩ env = none) := by
  constructor
  · intro inf regs env h
    unfold cont
    rw [if_neg h]
    rfl
  · intro inf rbp env
    rfl

/-- Continue environment used by the C10 witness. -/
def envC0 : ContEnv := ⟨.ok (.Exited 0), .ok (.Exited 0)⟩

theorem cont_rip_underflow_witness :
    ((⟨1, 0⟩ : Regs).rip ≠ 0) ∧ (cont infW ⟨1, 0⟩ envC0).isSome = true :=
  ⟨by decide, cont_rip_underflow.1 infW ⟨1, 0⟩ envC0 (by decide)⟩

/-- The status component of a `cont` result. -/
def contResultStatus :
    Option (Except NixError (Status × Inferior)) → Option (Except NixError Status)
  | none => none
  | some (.error e) => some (.error e)
  | some (.ok (st, _)) => some (.ok st)

/-- The inferior-state component of a successful `cont` result. -/
def contResultInferior : Option (Except NixError (Status × Inferior)) → Option Inferior
  | some (.ok (_, inf)) => some inf
  | _ => none

/-- Continue environment whose single step stops with SIGSEGV and whose final
resume wait reports a clean exit. -/
def envCseg : ContEnv := ⟨.ok (.Stopped .SIGSEGV 4098), .ok (.Exited 0)⟩

/-- C1 (counterexample): with breakpoint 4097 tracked and `pc = 4098`, a single
step whose wait reports a stop with SIGSEGV — a status other than a trap stop —
is not returned immediately as the claim states: `cont` falls through to the
resume request and returns the final wait's status (here `Exited 0`), and the
breakpoint is left un-re-armed (its address holds the original byte 0x77). -/
theorem cont_nontrap_stop_return_counterexample :
    envCseg.stepWait = .ok (.Stopped .SIGSEGV 4098) ∧
    contResultStatus (cont infW ⟨4098, 0⟩ envCseg) = some (.ok (.Exited 0)) ∧
    (Status.Exited 0 ≠ Status.Stopped .SIGSEGV 4098) ∧
    (contResultInferior (cont infW ⟨4098, 0⟩ envCseg)).map
      (fun i => byteAt i.mem 4097) = some (some 0x77) := by
  refine ⟨rfl, by rfl, by decide, by decide⟩

/-- C1 (amended): when `pc - 1` is a tracked breakpoint, `cont` restores the
saved original byte at the breakpoint address and single-steps after rewinding;
if the step's wait reports a stop with the trap signal, the trap opcode is
re-patched at the same address and execution falls through to the resume
request; if it reports a stop with any other signal, the breakpoint is not
re-armed but execution still falls through to the resume request; a non-stop
status (exit or signal-termination) is returned immediately, without re-arming
and without resuming; a wait error is propagated. -/
theorem cont_breakpoint_resume_protocol (inf : Inferior) (rip rbp : Nat) (env : ContEnv)
    (bp : Breakpoint) (w : Nat)
    (hrip : rip ≠ 0)
    (hb : bpLookup inf.breakpoints (rip - 1) = some bp)
    (haddr : bp.addr < U64MOD) (horig : bp.origByte < 256)
    (hm : inf.mem (alignAddrToWord bp.addr) = some w) :
    ∃ mem1, writeByte inf.mem bp.addr bp.origByte =
        .ok (wordByte w (bp.addr - alignAddrToWord bp.addr), mem1) ∧
      byteAt mem1 bp.addr = some bp.origByte ∧
      (∀ r, env.stepWait = .ok (.Stopped .SIGTRAP r) →
        ∃ o2 mem2, writeByte mem1 bp.addr 0xcc = .ok (o2, mem2) ∧
          byteAt mem2 bp.addr = some 0xcc ∧
          cont inf ⟨rip, rbp⟩ env = some (contResume ⟨inf.breakpoints, mem2⟩ env)) ∧
      (∀ sig r, sig ≠ .SIGTRAP → env.stepWait = .ok (.Stopped sig r) →
        cont inf ⟨rip, rbp⟩ env = some (contResume ⟨inf.breakpoints, mem1⟩ env)) ∧
      (∀ st, env.stepWait = .ok st → (∀ sig r, st ≠ .Stopped sig r) →
        cont inf ⟨rip, rbp⟩ env = some (.ok (st, ⟨inf.breakpoints, mem1⟩))) ∧
      (∀ e, env.stepWait = .error e → cont inf ⟨rip, rbp⟩ env = some (.error e)) := by
  have hw1 := writeByte_ok inf.mem bp.addr bp.origByte w hm
  refine ⟨_, hw1, byteAt_writeByte_same inf.mem bp.addr bp.origByte _ _ haddr horig hw1,
    ?_, ?_, ?_, ?_⟩
  · intro r hst
    have hm1 : (memWrite inf.mem (alignAddrToWord bp.addr)
        (setByteWord w (bp.addr - alignAddrToWord bp.addr) bp.origByte))
        (alignAddrToWord bp.addr) =
        some (setByteWord w (bp.addr - alignAddrToWord bp.addr) bp.origByte) :=
      memWrite_same _ _ _
    have hw2 := writeByte_ok _ bp.addr 0xcc _ hm1
    refine ⟨_, _, hw2, byteAt_writeByte_same _ bp.addr 0xcc _ _ haddr (by norm_num) hw2, ?_⟩
    unfold cont
    rw [if_neg hrip]
    simp only [hb, hw1, hst, hw2, if_true]
  · intro sig r hsig hst
    unfold cont
    rw [if_neg hrip]
    simp only [hb, hw1, hst, if_neg hsig]
  · intro st hst hne
    unfold cont
    rw [if_neg hrip]
    cases st with
    | Stopped sig r => exact absurd rfl (hne sig r)
    | Exited code => simp only [hb, hw1, hst]
    | Signaled sig => simp only [hb, hw1, hst]
  · intro e hst
    unfold cont
    rw [if_neg hrip]
    simp only [hb, hw1, hst]

/-- Continue environment whose single step stops with the trap signal. -/
def envCtrap : ContEnv := ⟨.ok (.Stopped .SIGTRAP 4097), .ok (.Stopped .SIGTRAP 4097)⟩

theorem cont_breakpoint_resume_protocol_witness :
    ∃ mem1, writeByte infW.mem 4097 0x77 = .ok (0xcc, mem1) ∧
      byteAt mem1 4097 = some 0x77 ∧
      (∀ r, envCtrap.stepWait = .ok (.Stopped .SIGTRAP r) →
        ∃ o2 mem2, writeByte mem1 4097 0xcc = .ok (o2, mem2) ∧
          byteAt mem2 4097 = some 0xcc ∧
          cont infW ⟨4098, 0⟩ envCtrap = some (contResume ⟨infW.breakpoints, mem2⟩ envCtrap)) ∧
      (∀ sig r, sig ≠ .SIGTRAP → envCtrap.stepWait = .ok (.Stopped sig r) →
        cont infW ⟨4098, 0⟩ envCtrap = some (contResume ⟨infW.breakpoints, mem1⟩ envCtrap)) ∧
      (∀ st, envCtrap.stepWait = .ok st → (∀ sig r, st ≠ .Stopped sig r) →
        cont infW ⟨4098, 0⟩ envCtrap = some (.ok (st, ⟨infW.breakpoints, mem1⟩))) ∧
      (∀ e, envCtrap.stepWait = .error e → cont infW ⟨4098, 0⟩ envCtrap = some (.error e)) :=
  cont_breakpoint_resume_protocol infW 4098 0 envCtrap ⟨4097, 0x77⟩ 0x112233445566cc88
    (by decide) (by decide) (by decide) (by decide) (by decide)

/-- Continue environment whose single step and final wait both stop with
SIGINT (the process stays live). -/
def envCint : ContEnv := ⟨.ok (.Stopped .SIGINT 4200), .ok (.Stopped .SIGINT 4200)⟩

/-- C9 (counterexample): starting from a state satisfying the invariant
(breakpoint 4097 tracked, trap opcode in memory), a `cont` whose single step
stops with SIGINT returns with the process still live, the breakpoint still
tracked (its original byte still recorded), but its address holding the
original byte 0x77 rather than the trap opcode — the invariant does not hold
after this Controller operation. -/
theorem cont_invariant_violation_counterexample :
    bpContains infW.breakpoints 4097 = true ∧
    byteAt infW.mem 4097 = some 0xcc ∧
    (contResultInferior (cont infW ⟨4098, 0⟩ envCint)).map
      (fun i => bpContains i.breakpoints 4097) = some true ∧
    (contResultInferior (cont infW ⟨4098, 0⟩ envCint)).map
      (fun i => byteAt i.mem 4097) = some (some 0x77) ∧
    ((0x77 : Nat) ≠ 0xcc) := by
  refine ⟨by decide, by decide, by decide, by decide, by decide⟩

/-- C9 (amended): the breakpoint invariant — every tracked breakpoint address
holds the trap opcode — is preserved by `insert_breakpoint`, and by `cont`
provided every status the single-step wait can report is a stop with the trap
signal; when the step reports any other status, the tracked breakpoint at the
resumed address is left restored (not re-armed) while still carrying its
recorded original byte. -/
theorem insert_cont_invariant :
    (∀ inf inf1 A, A < U64MOD → bpInvariant inf → wfInferior inf →
      insertBreakpoint inf A = .ok inf1 → bpInvariant inf1) ∧
    (∀ inf regs env st inf1, bpInvariant inf → wfInferior inf →
      (∀ st0, env.stepWait = .ok st0 → ∃ r, st0 = .Stopped .SIGTRAP r) →
      cont inf regs env = some (.ok (st, inf1)) → bpInvariant inf1) := by
  constructor
  · intro inf inf1 A hA hinv hwf h
    by_cases hc : bpContains inf.breakpoints A
    · rw [insertBreakpoint_tracked inf A hc] at h
      injection h with h
      rw [← h]
      exact hinv
    · unfold insertBreakpoint at h
      rw [if_neg hc] at h
      cases hw : writeByte inf.mem A 0xcc with
      | error e => rw [hw] at h; exact absurd h (by simp)
      | ok p =>
          obtain ⟨orig, mem1⟩ := p
          rw [hw] at h
          simp only at h
          injection h with h
          rw [← h]
          intro a bpa hla
          by_cases haA : a = A
          · subst haA
            exact byteAt_writeByte_same inf.mem a 0xcc orig mem1 hA (by norm_num) hw
          · rw [bpLookup_cons_other _ _ _ _ haA] at hla
            have hwfa := hwf a bpa hla
            rw [byteAt_writeByte_other inf.mem A 0xcc orig mem1 a hA hwfa.2.1 haA
              (by norm_num) hw]
            exact hinv a bpa hla
  · intro inf regs env st inf1 hinv hwf htrap h
    unfold cont at h
    by_cases hrip : regs.rip = 0
    · rw [if_pos hrip] at h
      exact absurd h (by simp)
    · rw [if_neg hrip] at h
      injection h with h
      cases hb : bpLookup inf.breakpoints (regs.rip - 1) with
      | none =>
          rw [hb] at h
          unfold contResume at h
          cases hcw : env.contWait with
          | error e => rw [hcw] at h; exact absurd h (by simp)
          | ok st2 =>
              rw [hcw] at h
              simp only [Except.ok.injEq, Prod.mk.injEq] at h
              rw [← h.2]
              exact hinv
      | some bp =>
          rw [hb] at h
          simp only at h
          obtain ⟨hbaddr, hblt, hborig⟩ := hwf _ _ hb
          have hbyte := hinv _ _ hb
          obtain ⟨w, hm⟩ : ∃ w, inf.mem (alignAddrToWord bp.addr) = some w := by
            rw [hbaddr]
            unfold byteAt at hbyte
            cases hm2 : inf.mem (alignAddrToWord (regs.rip - 1)) with
            | none => rw [hm2] at hbyte; exact absurd hbyte (by simp)
            | some w => exact ⟨w, rfl⟩
          have hw1 := writeByte_ok inf.mem bp.addr bp.origByte w hm
          rw [hw1] at h
          simp only at h
          cases hsw : env.stepWait with
          | error e => rw [hsw] at h; exact absurd h (by simp)
          | ok st0 =>
              rw [hsw] at h
              obtain ⟨r, hr⟩ := htrap st0 hsw
              subst hr
              simp only [if_true] at h
              have hm1 : (memWrite inf.mem (alignAddrToWord bp.addr)
                  (setByteWord w (bp.addr - alignAddrToWord bp.addr) bp.origByte))
                  (alignAddrToWord bp.addr) =
                  some (setByteWord w (bp.addr - alignAddrToWord bp.addr) bp.origByte) :=
                memWrite_same _ _ _
              have hw2 := writeByte_ok _ bp.addr 0xcc _ hm1
              rw [hw2] at h
              unfold contResume at h
              cases hcw : env.contWait with
              | error e => rw [hcw] at h; exact absurd h (by simp)
              | ok st2 =>
                  rw [hcw] at h
                  simp only [Except.ok.injEq, Prod.mk.injEq] at h
                  rw [← h.2]
                  intro a bpa hla
                  have hwa := hwf a bpa hla
                  have hblt2 : bp.addr < U64MOD := hbaddr ▸ hblt
                  by_cases hak : a = bp.addr
                  · subst hak
                    exact byteAt_writeByte_same _ bp.addr 0xcc _ _ hblt2 (by norm_num) hw2
                  · rw [byteAt_writeByte_other _ bp.addr 0xcc _ _ a hblt2 hwa.2.1 hak
                      (by norm_num) hw2]
                    rw [byteAt_writeByte_other _ bp.addr bp.origByte _ _ a hblt2 hwa.2.1 hak
                      hborig hw1]
                    exact hinv a bpa hla

/-- The inferior state `cont infW ⟨4098, 0⟩ envCtrap` produces: restore of the
original byte followed by the re-arm of the trap opcode in the word at 4096. -/
def infW2 : Inferior :=
  ⟨[(4097, ⟨4097, 0x77⟩)],
    memWrite (memWrite (memWrite memW 4096 0x112233445566cc88) 4096 0x1122334455667788)
      4096 0x112233445566cc88⟩

theorem infW_invariant : bpInvariant infW := by
  intro a bp h
  simp only [infW, bpLookup, List.lookup] at h
  by_cases ha : a = 4097
  · subst ha
    decide
  · rw [show (a == 4097) = false from by simp [ha]] at h
    exact absurd h (by simp)

theorem infW_wf : wfInferior infW := by
  intro a bp h
  simp only [infW, bpLookup, List.lookup] at h
  by_cases ha : a = 4097
  · subst ha
    simp only [beq_self_eq_true, Option.some.injEq] at h
    rw [← h]
    refine ⟨rfl, by decide, by decide⟩
  · rw [show (a == 4097) = false from by simp [ha]] at h
    exact absurd h (by simp)

theorem insert_cont_invariant_witness : bpInvariant infW2 :=
  insert_cont_invariant.2 infW ⟨4098, 0⟩ envCtrap (.Stopped .SIGTRAP 4097) infW2
    infW_invariant infW_wf
    (by
      intro st0 h
      simp only [envCtrap] at h
      injection h with h
      exact ⟨4097, h.symm⟩)
    (by rfl)

/-- A source line, from `dwarf_data` (`line.file`, `line.number`).  Rust
strings are modelled throughout as lists of characters, which keeps every
definition computable. -/
structure Line where
  file : List Char
  number : Nat
deriving DecidableEq

/-- The Symbol Resolver collaborator (`DwarfData`), restricted to the four
queries this core consumes; the source passes `None` as the file filter of
`get_addr_for_line` and `get_addr_for_function`, so that argument is dropped. -/
structure DwarfData where
  getLineFromAddr : Nat → Option Line
  getFunctionFromAddr : Nat → Option (List Char)
  getAddrForLine : Nat → Option Nat
  getAddrForFunction : List Char → Option Nat

/-- Observable debugger behaviour: the `println!` messages of `debugger.rs`
(identified by constructor rather than by format string), plus two
instrumentation marks — `killedInferior` for `inf.kill()` and `contInvoked`
for entering the `inf.cont()` call inside `Debugger::contin`. -/
inductive Output
  | breakpointSet (addr : Nat)
  | invalidBreakpoint
  | noChildProcess
  | errorStartingSubprocess
  | childStopped (signal : Signal)
  | stopLocation (func : List Char) (file : List Char) (line : Nat)
  | childExited (code : Int)
  | childExitedSignal (signal : Signal)
  | killedInferior
  | contInvoked
deriving DecidableEq

/-- The mutable session state of `struct Debugger`: the optional live inferior
and the configured breakpoint list `break_point`; the target path, history and
readline handles play no part in the claims. -/
structure Debugger where
  inferior : Option Inferior
  breakPoint : List Nat

def hexDigitVal (c : Char) : Option Nat :=
  if ('0' ≤ c ∧ c ≤ '9') then some (c.toNat - 48)
  else if ('a' ≤ c ∧ c ≤ 'f') then some (c.toNat - 87)
  else if ('A' ≤ c ∧ c ≤ 'F') then some (c.toNat - 55)
  else none

def hexDigitsVal : List Char → Nat → Option Nat
  | [], acc => some acc
  | c :: cs, acc =>
    match hexDigitVal c with
    | none => none
    | some d => hexDigitsVal cs (acc * 16 + d)

/-- Rust `usize::from_str_radix(s, 16)`: an optional leading plus sign, then at
least one hexadecimal digit, rejecting values beyond the 64-bit range. -/
def fromStrRadix16 (s : List Char) : Option Nat :=
  match
    (match s with
     | '+' :: rest => rest
     | l => l) with
  | [] => none
  | c :: cs =>
    match hexDigitsVal (c :: cs) 0 with
    | some v => if v < U64MOD then some v else none
    | none => none

def decDigitsVal : List Char → Nat → Option Nat
  | [], acc => some acc
  | c :: cs, acc =>
    if ('0' ≤ c ∧ c ≤ '9') then decDigitsVal cs (acc * 10 + (c.toNat - 48))
    else none

/-- Rust `s.parse::<usize>()`: an optional leading plus sign, then at least one
decimal digit, rejecting values beyond the 64-bit range. -/
def parseUsize (s : List Char) : Option Nat :=
  match
    (match s with
     | '+' :: rest => rest
     | l => l) with
  | [] => none
  | c :: cs =>
    match decDigitsVal (c :: cs) 0 with
    | some v => if v < U64MOD then some v else none
    | none => none

/-- The `addr.to_lowercase().starts_with("0x")` test of `parse_address`
(lower-casing only matters for the two inspected characters). -/
def starts0x (s : List Char) : Bool :=
  match s with
  | c0 :: c1 :: _ => c0.toLower == '0' && c1.toLower == 'x'
  | _ => false

/-- Source `Debugger::parse_address`: strips a case-insensitive `0x` prefix and
parses the rest (of the original string) as hexadecimal. -/
def parseAddress (addr : List Char) : Option Nat :=
  if starts0x addr then fromStrRadix16 (addr.drop 2)
  else fromStrRadix16 addr

/-- The address computation of the `DebuggerCommand::Breakpoint` arm of
`Debugger::run`: a `*`-prefixed spec is parsed as a hexadecimal address (with
no fallback), otherwise a spec that parses as a decimal number is resolved as
a line via `get_addr_for_line`, otherwise the spec is resolved as a function
name via `get_addr_for_function`. -/
def resolveBreakpointSpec (dd : DwarfData) (breakpoint : List Char) : Option Nat :=
  match breakpoint with
  | '*' :: rest => parseAddress rest
  | _ =>
    match parseUsize breakpoint with
    | some linenum => dd.getAddrForLine linenum
    | none => dd.getAddrForFunction breakpoint

/-- Modelled from the spec's words for claim C5 (refinement comparison only):
resolution tried in order — a raw hexadecimal address, else a line number via
address-for-line, else a function name via address-for-function. -/
def resolveSpecClaimOrder (dd : DwarfData) (s : List Char) : Option Nat :=
  match parseAddress s with
  | some a => some a
  | none =>
    match parseUsize s with
    | some n => dd.getAddrForLine n
    | none => dd.getAddrForFunction s

/-- Source `Debugger::insert_bp`: pushes the address onto `break_point`,
prints the breakpoint message, and — when an inferior is live — calls
`insert_breakpoint`, discarding its result (`let _ = ...`). -/
def insertBp (d : Debugger) (addr : Nat) : Debugger × List Output :=
  match d.inferior with
  | none => (⟨none, d.breakPoint ++ [addr]⟩, [.breakpointSet addr])
  | some inf =>
    match insertBreakpoint inf addr with
    | .error _ => (⟨some inf, d.breakPoint ++ [addr]⟩, [.breakpointSet addr])
    | .ok inf1 => (⟨some inf1, d.breakPoint ++ [addr]⟩, [.breakpointSet addr])

/-- The `DebuggerCommand::Breakpoint` arm of `Debugger::run`. -/
def breakpointCmd (dd : DwarfData) (d : Debugger) (breakpoint : List Char) :
    Debugger × List Output :=
  match resolveBreakpointSpec dd breakpoint with
  | some addr => insertBp d addr
  | none => (d, [.invalidBreakpoint])

/-- Source `Debugger::contin`.  `none` models the panics of that function: the
`.expect("Error continuing inferior")` on a `cont` error, and the underflow
inside `cont` itself.  The source resolves the function name first, then the
line, returning early (after the stop message) if either is missing. -/
def contin (dd : DwarfData) (d : Debugger) (regs : Regs) (env : ContEnv) :
    Option (Debugger × List Output) :=
  match d.inferior with
  | none => some (d, [.noChildProcess])
  | some inf =>
    match cont inf regs env with
    | none => none
    | some (.error _) => none
    | some (.ok (st, inf1)) =>
      match st with
      | .Stopped sig reg =>
        match dd.getFunctionFromAddr reg with
        | none => some (⟨some inf1, d.breakPoint⟩, [.contInvoked, .childStopped sig])
        | some func =>
          match dd.getLineFromAddr reg with
          | none => some (⟨some inf1, d.breakPoint⟩, [.contInvoked, .childStopped sig])
          | some line =>
            some (⟨some inf1, d.breakPoint⟩,
              [.contInvoked, .childStopped sig, .stopLocation func line.file line.number])
      | .Exited code => some (⟨none, d.breakPoint⟩, [.contInvoked, .childExited code])
      | .Signaled sig => some (⟨none, d.breakPoint⟩, [.contInvoked, .childExitedSignal sig])

/-- The `DebuggerCommand::Run` arm of `Debugger::run`: the spawn is attempted
first; only if it succeeds is the previously live inferior (if any) killed,
the new one installed, and `contin` entered; a failed spawn reports the error
and leaves the session untouched. -/
def runCmd (dd : DwarfData) (d : Debugger) (senv : SpawnEnv) (cenv : ContEnv)
    (regs : Regs) : Option (Debugger × List Output) :=
  match inferiorNew senv d.breakPoint with
  | some inferior =>
    match contin dd ⟨some inferior, d.breakPoint⟩ regs cenv with
    | none => none
    | some (d2, out2) =>
      match d.inferior with
      | some _ => some (d2, .killedInferior :: out2)
      | none => some (d2, out2)
  | none => some (d, [.errorStartingSubprocess])

/-- Symbol data with no entries at all. -/
def ddEmpty : DwarfData := ⟨fun _ => none, fun _ => none, fun _ => none, fun _ => none⟩

/-- A spawn environment whose `Command::spawn` fails. -/
def senvFail : SpawnEnv := ⟨false, .ok (.Exited 0), memW⟩

/-- C3 (counterexample): executing `run` with a live inferior and a failing
spawn does not kill the existing inferior and does not leave the session with
no live inferior as the claim states: the spawn is attempted first, its
failure is reported, and the previously live inferior remains installed. -/
theorem run_spawn_failure_keeps_inferior_counterexample :
    (runCmd ddEmpty ⟨some infW, [4097]⟩ senvFail envC0 ⟨4098, 0⟩).map
      (fun p => p.1.inferior.isSome) = some true ∧
    (runCmd ddEmpty ⟨some infW, [4097]⟩ senvFail envC0 ⟨4098, 0⟩).map
      (fun p => p.2) = some [Output.errorStartingSubprocess] ∧
    (Output.killedInferior ∉ ([Output.errorStartingSubprocess] : List Output)) := by
  refine ⟨rfl, rfl, by decide⟩

/-- Inside `Debugger::contin` with a live inferior, `inf.cont()` is entered
exactly once (every returned output list carries exactly one `contInvoked`
mark). -/
theorem contin_some_count (dd : DwarfData) (inf : Inferior) (bps : List Nat)
    (regs : Regs) (cenv : ContEnv) (d2 : Debugger) (out2 : List Output)
    (h : contin dd ⟨some inf, bps⟩ regs cenv = some (d2, out2)) :
    out2.count Output.contInvoked = 1 := by
  cases hc : cont inf regs cenv with
  | none =>
      simp only [contin, hc] at h
      exact absurd h (by simp)
  | some r =>
      cases r with
      | error e =>
          simp only [contin, hc] at h
          exact absurd h (by simp)
      | ok p =>
          obtain ⟨st, inf1⟩ := p
          cases st with
          | Stopped sig reg =>
              cases hf : dd.getFunctionFromAddr reg with
              | none =>
                  simp only [contin, hc, hf, Option.some.injEq, Prod.mk.injEq] at h
                  rw [← h.2]
                  simp [List.count_cons]
              | some func =>
                  cases hl : dd.getLineFromAddr reg with
                  | none =>
                      simp only [contin, hc, hf, hl, Option.some.injEq, Prod.mk.injEq] at h
                      rw [← h.2]
                      simp [List.count_cons]
                  | some line =>
                      simp only [contin, hc, hf, hl, Option.some.injEq, Prod.mk.injEq] at h
                      rw [← h.2]
                      simp [List.count_cons]
          | Exited code =>
              simp only [contin, hc, Option.some.injEq, Prod.mk.injEq] at h
              rw [← h.2]
              simp [List.count_cons]
          | Signaled sig =>
              simp only [contin, hc, Option.some.injEq, Prod.mk.injEq] at h
              rw [← h.2]
              simp [List.count_cons]

/-- C3 (amended): the `run` command attempts the spawn first, passing all
configured breakpoint addresses; if the spawn fails, the failure is reported
and the session is left unchanged (an existing live inferior stays live); if
the spawn succeeds, the existing inferior (when present) is killed, the new
inferior — with every configured address inserted — is installed, and
`continue_execution` is invoked exactly once. -/
theorem run_command_spec (dd : DwarfData) (d : Debugger) (senv : SpawnEnv)
    (cenv : ContEnv) (regs : Regs) :
    (inferiorNew senv d.breakPoint = none →
      runCmd dd d senv cenv regs = some (d, [Output.errorStartingSubprocess])) ∧
    (∀ newInf, inferiorNew senv d.breakPoint = some newInf →
      (∀ a, a ∈ d.breakPoint → bpContains newInf.breakpoints a = true) ∧
      ∀ d2 out2, contin dd ⟨some newInf, d.breakPoint⟩ regs cenv = some (d2, out2) →
        runCmd dd d senv cenv regs =
          some (d2, (match d.inferior with
            | some _ => Output.killedInferior :: out2
            | none => out2)) ∧
        out2.count Output.contInvoked = 1) := by
  constructor
  · intro hfail
    unfold runCmd
    rw [hfail]
  · intro newInf hnew
    constructor
    · exact inferiorNew_breakpoints senv d.breakPoint newInf hnew
    · intro d2 out2 hcontin
      constructor
      · simp only [runCmd, hnew, hcontin]
        cases d.inferior <;> rfl
      · exact contin_some_count dd newInf d.breakPoint regs cenv d2 out2 hcontin

theorem run_command_spec_witness :
    (∀ a, a ∈ [4097] → bpContains infW.breakpoints a = true) ∧
    (runCmd ddEmpty ⟨some infW, [4097]⟩ envW envCtrap ⟨4098, 0⟩ =
      some (⟨some infW2, [4097]⟩,
        [Output.killedInferior, Output.contInvoked, Output.childStopped .SIGTRAP]) ∧
    ([Output.contInvoked, Output.childStopped .SIGTRAP] : List Output).count
      Output.contInvoked = 1) := by
  have h := (run_command_spec ddEmpty ⟨some infW, [4097]⟩ envW envCtrap ⟨4098, 0⟩).2
    infW (by rfl)
  exact ⟨h.1, h.2 ⟨some infW2, [4097]⟩
    [Output.contInvoked, Output.childStopped .SIGTRAP] (by rfl)⟩

/-- C5 (counterexample): the spec string "ff" parses as a raw hexadecimal
address (255), so under the claim's try-hex-first order it would resolve
successfully; the code never tries hexadecimal for a spec that does not start
with `*`, fails to resolve "ff" as a line or function, reports an invalid
specification, and leaves the state unchanged. -/
theorem breakpoint_spec_order_counterexample :
    resolveSpecClaimOrder ddEmpty (['f', 'f']) = some 255 ∧
    resolveBreakpointSpec ddEmpty (['f', 'f']) = none ∧
    breakpointCmd ddEmpty ⟨none, []⟩ (['f', 'f']) =
      (⟨none, []⟩, [Output.invalidBreakpoint]) := by
  refine ⟨by decide, by decide, by rfl⟩

/-- Equation lemmas for `insert_bp` under the three runtime situations. -/
theorem insertBp_none (d : Debugger) (addr : Nat) (h : d.inferior = none) :
    insertBp d addr = (⟨none, d.breakPoint ++ [addr]⟩, [Output.breakpointSet addr]) := by
  simp only [insertBp, h]

theorem insertBp_some_error (d : Debugger) (inf : Inferior) (addr : Nat) (e : NixError)
    (h : d.inferior = some inf) (hw : insertBreakpoint inf addr = .error e) :
    insertBp d addr = (⟨some inf, d.breakPoint ++ [addr]⟩, [Output.breakpointSet addr]) := by
  simp only [insertBp, h, hw]

theorem insertBp_some_ok (d : Debugger) (inf : Inferior) (addr : Nat) (inf1 : Inferior)
    (h : d.inferior = some inf) (hw : insertBreakpoint inf addr = .ok inf1) :
    insertBp d addr = (⟨some inf1, d.breakPoint ++ [addr]⟩, [Output.breakpointSet addr]) := by
  simp only [insertBp, h, hw]

/-- C5 (amended): a breakpoint spec is resolved by the code as follows — a
`*`-prefixed spec is parsed as a hexadecimal address with no fallback; any
other spec that parses as a decimal number is resolved via address-for-line;
any other spec is resolved via address-for-function; on successful resolution
the address is appended to the configured set and, if an inferior is live, an
insertion into the process is attempted; on resolution failure an
invalid-specification diagnostic is reported and the state is unchanged. -/
theorem breakpoint_command_resolution (dd : DwarfData) (d : Debugger) (s : List Char) :
    (∀ rest, s = '*' :: rest → resolveBreakpointSpec dd s = parseAddress rest) ∧
    ((∀ rest, s ≠ '*' :: rest) → ∀ n, parseUsize s = some n →
      resolveBreakpointSpec dd s = dd.getAddrForLine n) ∧
    ((∀ rest, s ≠ '*' :: rest) → parseUsize s = none →
      resolveBreakpointSpec dd s = dd.getAddrForFunction s) ∧
    (∀ addr, resolveBreakpointSpec dd s = some addr →
      breakpointCmd dd d s = insertBp d addr ∧
      (insertBp d addr).1.breakPoint = d.breakPoint ++ [addr] ∧
      (insertBp d addr).2 = [Output.breakpointSet addr]) ∧
    (resolveBreakpointSpec dd s = none →
      breakpointCmd dd d s = (d, [Output.invalidBreakpoint])) := by
  refine ⟨?_, ?_, ?_, ?_, ?_⟩
  · intro rest h
    subst h
    rfl
  · intro hstar n hn
    unfold resolveBreakpointSpec
    split
    · rename_i rest
      exact absurd rfl (hstar rest)
    · rw [hn]
  · intro hstar hn
    unfold resolveBreakpointSpec
    split
    · rename_i rest
      exact absurd rfl (hstar rest)
    · rw [hn]
  · intro addr h
    refine ⟨?_, ?_, ?_⟩
    · simp only [breakpointCmd, h]
    · cases hd : d.inferior with
      | none => rw [insertBp_none d addr hd]
      | some inf =>
          cases hw : insertBreakpoint inf addr with
          | error e => rw [insertBp_some_error d inf addr e hd hw]
          | ok inf1 => rw [insertBp_some_ok d inf addr inf1 hd hw]
    · cases hd : d.inferior with
      | none => rw [insertBp_none d addr hd]
      | some inf =>
          cases hw : insertBreakpoint inf addr with
          | error e => rw [insertBp_some_error d inf addr e hd hw]
          | ok inf1 => rw [insertBp_some_ok d inf addr inf1 hd hw]
  · intro h
    simp only [breakpointCmd, h]

/-- Symbol data mapping line 10 to address 4097 and nothing else. -/
def ddLine : DwarfData :=
  ⟨fun _ => none, fun _ => none, fun n => if n = 10 then some 4097 else none,
    fun _ => none⟩

theorem breakpoint_command_resolution_witness :
    resolveBreakpointSpec ddLine (['1', '0']) = ddLine.getAddrForLine 10 ∧
    (breakpointCmd ddLine ⟨none, []⟩ (['1', '0']) = insertBp ⟨none, []⟩ 4097 ∧
      (insertBp (⟨none, []⟩ : Debugger) 4097).1.breakPoint = [] ++ [4097] ∧
      (insertBp (⟨none, []⟩ : Debugger) 4097).2 = [Output.breakpointSet 4097]) :=
  ⟨(breakpoint_command_resolution ddLine ⟨none, []⟩ (['1', '0'])).2.1
      (fun rest h => by simp at h) 10 (by decide),
    (breakpoint_command_resolution ddLine ⟨none, []⟩ (['1', '0'])).2.2.2.1 4097 (by decide)⟩

/-- C8 (counterexample): with a live inferior, inserting a breakpoint at the
unmapped address 5000 fails inside `insert_breakpoint`, but `insert_bp`
discards the error (`let _ = ...`): the only output is the ordinary
"Breakpoint at ..." message — no failure diagnostic is reported — while the
address is appended to the configured list, the inferior is unchanged, and the
address stays unpatched (still unmapped). -/
theorem insert_bp_silent_failure_counterexample :
    insertBreakpoint infW 5000 = .error .sys ∧
    (insertBp ⟨some infW, []⟩ 5000).2 = [Output.breakpointSet 5000] ∧
    (insertBp ⟨some infW, []⟩ 5000).1.breakPoint = [5000] ∧
    (insertBp ⟨some infW, []⟩ 5000).1.inferior.map (fun i => byteAt i.mem 5000) =
      some none := by
  refine ⟨by rfl, by rfl, by rfl, by rfl⟩

/-- C8 (amended): when `insert_breakpoint` fails with a memory-access error
while an inferior is live, the session continues with the inferior unchanged
and the address unpatched (the failing address is even unmapped), the address
is still appended to the configured list, but the failure is silently
discarded: the only output is the ordinary breakpoint message, with no error
diagnostic. -/
theorem insert_bp_failure_behavior (d : Debugger) (inf : Inferior) (addr : Nat)
    (e : NixError)
    (hlive : d.inferior = some inf)
    (hfail : insertBreakpoint inf addr = .error e) :
    insertBp d addr = (⟨some inf, d.breakPoint ++ [addr]⟩, [Output.breakpointSet addr]) ∧
    bpContains inf.breakpoints addr = false ∧
    byteAt inf.mem addr = none := by
  have hnot : bpContains inf.breakpoints addr = false := by
    by_cases hc : bpContains inf.breakpoints addr
    · rw [insertBreakpoint_tracked inf addr hc] at hfail
      exact absurd hfail (by simp)
    · simpa using hc
  refine ⟨?_, hnot, ?_⟩
  · simp only [insertBp, hlive, hfail]
  · unfold insertBreakpoint at hfail
    rw [if_neg (by simp [hnot])] at hfail
    cases hm : inf.mem (alignAddrToWord addr) with
    | none =>
        unfold byteAt
        rw [hm]
    | some w =>
        rw [writeByte_ok inf.mem addr 0xcc w hm] at hfail
        exact absurd hfail (by simp)

theorem insert_bp_failure_behavior_witness :
    insertBp ⟨some infW, []⟩ 5000 =
      (⟨some infW, [] ++ [5000]⟩, [Output.breakpointSet 5000]) ∧
    bpContains infW.breakpoints 5000 = false ∧
    byteAt infW.mem 5000 = none :=
  insert_bp_failure_behavior ⟨some infW, []⟩ infW 5000 .sys rfl (by rfl)

/-- Observable output of `Inferior::print_backtrace`: the `%rip` banner, one
entry per printed frame, and the two degradation messages. -/
inductive BtOutput
  | ripValue (rip : Nat)
  | frame (func : List Char) (file : List Char) (line : Nat)
  | noLineInfo
  | noFunctionInfo
deriving DecidableEq

/-- The entry-function name the unwinder stops at (`func == "main"`). -/
def mainName : List Char := ['m', 'a', 'i', 'n']

/-- The unwinding loop of `Inferior::print_backtrace`, with explicit fuel:
`none` models not terminating within `fuel` iterations, so a result that is
`some` for every positive fuel is a walk that terminates at once.  `readWord a`
models `ptrace::read` of the word at byte address `a` (`none` is a read
error).  The source prints the frame, breaks after printing when the function
is the entry function, and otherwise follows the saved return-address and
frame-base slots. -/
def backtraceLoop (dd : DwarfData) (readWord : Nat → Option Nat) :
    Nat → Nat → Nat → List BtOutput → Option (Except NixError (List BtOutput))
  | 0, _, _, _ => none
  | fuel + 1, basePtr, instructionPtr, acc =>
    match dd.getLineFromAddr instructionPtr with
    | none => some (.ok (acc ++ [.noLineInfo]))
    | some line =>
      match dd.getFunctionFromAddr instructionPtr with
      | none => some (.ok (acc ++ [.noFunctionInfo]))
      | some func =>
        if func = mainName then
          some (.ok (acc ++ [.frame func line.file line.number]))
        else
          match readWord (basePtr + 8) with
          | none => some (.error .sys)
          | some ip1 =>
            match readWord basePtr with
            | none => some (.error .sys)
            | some bp1 =>
              backtraceLoop dd readWord fuel bp1 ip1
                (acc ++ [.frame func line.file line.number])

/-- Source `Inferior::print_backtrace`: prints the `%rip` register, then walks
from the current `rbp`/`rip`. -/
def printBacktrace (dd : DwarfData) (readWord : Nat → Option Nat) (regs : Regs)
    (fuel : Nat) : Option (Except NixError (List BtOutput)) :=
  backtraceLoop dd readWord fuel regs.rbp regs.rip [.ripValue regs.rip]

/-- C7 (confirmed): the backtrace walk stops — for any fuel, i.e. without
hanging — at the first frame whose line resolution fails, and at the first
frame whose function resolution fails, in both cases returning the previously
collected entries plus the degradation message (an `ok` result, not an
error); it stops after emitting the frame whose resolved function name is the
entry function; and every frame it ever emits comes from an address whose
line and function resolutions both succeeded. -/
theorem backtrace_walk_termination (dd : DwarfData) (readWord : Nat → Option Nat) :
    (∀ fuel basePtr ip acc, 1 ≤ fuel → dd.getLineFromAddr ip = none →
      backtraceLoop dd readWord fuel basePtr ip acc =
        some (.ok (acc ++ [.noLineInfo]))) ∧
    (∀ fuel basePtr ip acc line, 1 ≤ fuel → dd.getLineFromAddr ip = some line →
      dd.getFunctionFromAddr ip = none →
      backtraceLoop dd readWord fuel basePtr ip acc =
        some (.ok (acc ++ [.noFunctionInfo]))) ∧
    (∀ fuel basePtr ip acc line, 1 ≤ fuel → dd.getLineFromAddr ip = some line →
      dd.getFunctionFromAddr ip = some mainName →
      backtraceLoop dd readWord fuel basePtr ip acc =
        some (.ok (acc ++ [.frame mainName line.file line.number]))) ∧
    (∀ fuel, ∀ basePtr ip acc out,
      backtraceLoop dd readWord fuel basePtr ip acc = some (.ok out) →
      ∀ f fl ln, BtOutput.frame f fl ln ∈ out → BtOutput.frame f fl ln ∈ acc ∨
        ∃ a l, dd.getLineFromAddr a = some l ∧ dd.getFunctionFromAddr a = some f ∧
          l.file = fl ∧ l.number = ln) := by
  refine ⟨?_, ?_, ?_, ?_⟩
  · intro fuel basePtr ip acc hfuel hline
    cases fuel with
    | zero => omega
    | succ k => simp only [backtraceLoop, hline]
  · intro fuel basePtr ip acc line hfuel hline hfunc
    cases fuel with
    | zero => omega
    | succ k => simp only [backtraceLoop, hline, hfunc]
  · intro fuel basePtr ip acc line hfuel hline hfunc
    cases fuel with
    | zero => omega
    | succ k => simp only [backtraceLoop, hline, hfunc, if_true]
  · intro fuel
    induction fuel with
    | zero =>
        intro basePtr ip acc out h
        exact absurd h (by simp [backtraceLoop])
    | succ k ih =>
        intro basePtr ip acc out h f fl ln hmem
        cases hline : dd.getLineFromAddr ip with
        | none =>
            simp only [backtraceLoop, hline, Option.some.injEq, Except.ok.injEq] at h
            rw [← h] at hmem
            rcases List.mem_append.mp hmem with ha | hb
            · exact Or.inl ha
            · exact absurd hb (by simp)
        | some line =>
            cases hfunc : dd.getFunctionFromAddr ip with
            | none =>
                simp only [backtraceLoop, hline, hfunc, Option.some.injEq,
                  Except.ok.injEq] at h
                rw [← h] at hmem
                rcases List.mem_append.mp hmem with ha | hb
                · exact Or.inl ha
                · exact absurd hb (by simp)
            | some func =>
                by_cases hmain : func = mainName
                · simp only [backtraceLoop, hline, hfunc, if_pos hmain,
                    Option.some.injEq, Except.ok.injEq] at h
                  rw [← h] at hmem
                  rcases List.mem_append.mp hmem with ha | hb
                  · exact Or.inl ha
                  · have hb2 := List.mem_singleton.mp hb
                    injection hb2 with h1 h2 h3
                    exact Or.inr ⟨ip, line, hline, h1 ▸ hfunc, h2.symm, h3.symm⟩
                · cases hr1 : readWord (basePtr + 8) with
                  | none =>
                      simp only [backtraceLoop, hline, hfunc, if_neg hmain, hr1,
                        Option.some.injEq] at h
                      exact absurd h (by simp)
                  | some ip1 =>
                      cases hr2 : readWord basePtr with
                      | none =>
                          simp only [backtraceLoop, hline, hfunc, if_neg hmain, hr1, hr2,
                            Option.some.injEq] at h
                          exact absurd h (by simp)
                      | some bp1 =>
                          simp only [backtraceLoop, hline, hfunc, if_neg hmain, hr1,
                            hr2] at h
                          rcases ih bp1 ip1 _ out h f fl ln hmem with hacc | hex
                          · rcases List.mem_append.mp hacc with ha | hb
                            · exact Or.inl ha
                            · have hb2 := List.mem_singleton.mp hb
                              injection hb2 with h1 h2 h3
                              exact Or.inr ⟨ip, line, hline, h1 ▸ hfunc, h2.symm, h3.symm⟩
                          · exact Or.inr hex

theorem backtrace_walk_termination_witness :
    (1 : Nat) ≤ 5 ∧
    backtraceLoop ddEmpty (fun _ => none) 5 4096 4097 [BtOutput.ripValue 4097] =
      some (.ok ([BtOutput.ripValue 4097] ++ [BtOutput.noLineInfo])) :=
  ⟨by decide, (backtrace_walk_termination ddEmpty (fun _ => none)).1 5 4096 4097
    [BtOutput.ripValue 4097] (by decide) (by rfl)⟩

end Deet
